import Mathlib

/-
Verification of the trading-data notification system's scheduler core:
content deduplication (`src/deduplicator.py`), sliding-window rate limiting
(`src/rate_limiter.py`), Twitter slot allocation, time-slot generation and
the publish pipeline (`src/scheduler_v2.py`).

SQLite tables are modelled as Lean lists of rows, timestamps as integer
seconds since an arbitrary epoch (`datetime` arithmetic uses
86400 seconds per day, 60 per minute), Python `None` returns as `Option`,
and the platform / AI collaborators as explicit outcome parameters.
-/

namespace TradingBot

/-- One row of the `content_hashes` table created by
`Deduplicator._init_database`.  The schema is
`content_hash TEXT UNIQUE NOT NULL, endpoint TEXT NOT NULL,
platform TEXT NOT NULL, posted_at TIMESTAMP` — note that the `UNIQUE`
constraint is on `content_hash` alone, not on the
(hash, endpoint, platform) triple. -/
structure DedupRow where
  contentHash : String
  endpoint : String
  platform : String
  postedAt : Int
  deriving DecidableEq, Repr

/-- The `SELECT COUNT(*) ... WHERE content_hash = ? AND endpoint = ? AND
platform = ?` query of `Deduplicator.is_duplicate`. -/
def dedupCount (store : List DedupRow) (hash endpoint platform : String) : Nat :=
  store.countP (fun r =>
    r.contentHash == hash && r.endpoint == endpoint && r.platform == platform)

/-- Embedding of `Deduplicator.is_duplicate`: the count for the triple is
positive (`is_dup = count > 0`). -/
def isDuplicate (store : List DedupRow) (hash endpoint platform : String) : Bool :=
  decide (0 < dedupCount store hash endpoint platform)

/-- Embedding of `Deduplicator.record_post`.  The `INSERT` succeeds only when
no existing row carries the same `content_hash` (the table's `UNIQUE`
constraint is on the hash column alone); on a violation SQLite raises
`IntegrityError`, which `record_post` catches and swallows, leaving the
table unchanged. -/
def recordPost (store : List DedupRow) (hash endpoint platform : String)
    (now : Int) : List DedupRow :=
  if store.any (fun r => r.contentHash == hash) then store
  else store ++ [⟨hash, endpoint, platform, now⟩]

/-- Payload-level `Deduplicator.is_duplicate`: the content fingerprint
`_compute_hash` (sha256 of the sorted-keys JSON serialization) is modelled
as an uninterpreted function `fp` from payloads to digest strings. -/
def isDuplicateData {α : Type} (fp : α → String) (store : List DedupRow)
    (data : α) (endpoint platform : String) : Bool :=
  isDuplicate store (fp data) endpoint platform

/-- Payload-level `Deduplicator.record_post` (see `isDuplicateData`). -/
def recordPostData {α : Type} (fp : α → String) (store : List DedupRow)
    (data : α) (endpoint platform : String) (now : Int) : List DedupRow :=
  recordPost store (fp data) endpoint platform now

/-- Embedding of `Deduplicator.cleanup_old_hashes`: deletes rows with
`posted_at < now - days` (the cutoff `datetime.now() - timedelta(days=days)`),
and returns the new table together with the Python return value.  The Python
function computes `deleted = cursor.rowcount` but only logs it and falls off
the end, i.e. it returns `None`; hence the second component is always
`none` (a returned count would be `some`). -/
def cleanupOldHashes (store : List DedupRow) (now : Int) (days : Int) :
    List DedupRow × Option Nat :=
  let cutoff := now - days * 86400
  (store.filter (fun r => !(decide (r.postedAt < cutoff))), none)

/-- The `SELECT COUNT(*) FROM twitter_posts WHERE posted_at > ?` query of
`RateLimiter.can_post`, over the rate-limit ledger (a list of publish
timestamps). -/
def countSince (ledger : List Int) (t : Int) : Nat :=
  ledger.countP (fun p => decide (t < p))

/-- The per-minute denial string built by `RateLimiter.can_post`
("Per-minute limit reached. Wait {wait_seconds}s"). -/
def perMinuteReason (waitSeconds : Int) : String :=
  "Per-minute limit reached. Wait " ++ toString waitSeconds ++ "s"

/-- The per-day denial string built by `RateLimiter.can_post`
("Daily limit reached ({max_per_day} posts/day)"). -/
def dailyReason (maxPerDay : Nat) : String :=
  "Daily limit reached (" ++ toString maxPerDay ++ " posts/day)"

/-- Embedding of `RateLimiter.can_post`.  With a single clock reading `now`,
`wait_seconds = 60 - (now - one_minute_ago).seconds` evaluates to
`60 - 60 = 0`. -/
def canPost (ledger : List Int) (now : Int) (maxPerMinute maxPerDay : Nat) :
    Bool × Option String :=
  let oneMinuteAgo := now - 60
  let countLastMinute := countSince ledger oneMinuteAgo
  if maxPerMinute ≤ countLastMinute then
    (false, some (perMinuteReason (60 - (now - oneMinuteAgo))))
  else
    let oneDayAgo := now - 86400
    let countLastDay := countSince ledger oneDayAgo
    if maxPerDay ≤ countLastDay then
      (false, some (dailyReason maxPerDay))
    else
      (true, none)

/-- Embedding of `RateLimiter.record_post`: append one ledger row carrying the
current timestamp. -/
def rlRecordPost (ledger : List Int) (now : Int) : List Int :=
  ledger ++ [now]

/-- One entry of `OptimalScheduler.ENDPOINT_CONFIG` together with its key.
`priority` is the `EndpointPriority` value (PREMIUM = 1, MARKET = 2,
ANALYSIS = 3, DAILY_RECAP = 4; lower value = higher priority). -/
structure EndpointCfg where
  name : String
  priority : Nat
  window : String := "full_day"
  fixedTimes : Option (List (Nat × Nat)) := none
  maxDaily : Option Nat := none
  dayOfWeek : Option String := none
  marketHoursOnly : Bool := false
  deriving DecidableEq, Repr

/-- Insert an endpoint into a priority-sorted list, before the first entry
whose priority value is greater than or equal to its own (so that, inserting
the earlier of two equal-priority entries last, it ends up first). -/
def insertByPriority (e : EndpointCfg) : List EndpointCfg → List EndpointCfg
  | [] => [e]
  | x :: xs =>
      if e.priority ≤ x.priority then e :: x :: xs
      else x :: insertByPriority e xs

/-- Stable sort by ascending priority value.  Python's
`sorted(flexible_eps, key=lambda ep: ...priority.value)` is a stable sort, and
a stable insertion sort computes the same permutation: equal-priority entries
keep their original relative order. -/
def sortByPriority : List EndpointCfg → List EndpointCfg
  | [] => []
  | x :: xs => insertByPriority x (sortByPriority xs)

/-- Sum of the `max_daily` values of the fixed (once-daily) endpoints — the
value of `sum(allocation.values())` right after the fixed endpoints have been
reserved in `OptimalScheduler._allocate_slots`. -/
def fixedSum (eps : List EndpointCfg) : Nat :=
  ((eps.filter (fun e => e.maxDaily.isSome)).map (fun e => e.maxDaily.getD 0)).sum

/-- Embedding of `OptimalScheduler._allocate_slots`.  `eps` is the list of
active endpoints (each name paired with its `ENDPOINT_CONFIG` entry, in
`active_endpoints` order) and `cap` is `config.twitter_max_posts_per_day`.
Fixed endpoints get exactly their `max_daily`; if any flexible endpoints
remain and `remaining = cap - fixedSum` is positive, each flexible endpoint
gets `remaining // n` and the `remaining % n` leftover slots go one each to
the earliest entries of the priority-sorted flexible list.  The returned
association list is the `allocation` dict (fixed entries first, then flexible
entries in sorted order; names are dict keys, so callers look up by name). -/
def allocateSlots (eps : List EndpointCfg) (cap : Nat) : List (String × Nat) :=
  let fixedEps := eps.filter (fun e => e.maxDaily.isSome)
  let flexEps := eps.filter (fun e => !e.maxDaily.isSome)
  let fixedAlloc := fixedEps.map (fun e => (e.name, e.maxDaily.getD 0))
  if flexEps.isEmpty then fixedAlloc
  else if cap ≤ fixedSum eps then
    fixedAlloc ++ flexEps.map (fun e => (e.name, 0))
  else
    let remaining := cap - fixedSum eps
    let n := flexEps.length
    let base := remaining / n
    let extra := remaining % n
    (sortByPriority flexEps).enum.map
        (fun p => (p.2.name, base + if p.1 < extra then 1 else 0))
    |> (fixedAlloc ++ ·)

/-- Dict lookup into an allocation (first entry wins, as in a Python dict
built without key collisions). -/
def allocLookup (alloc : List (String × Nat)) (name : String) : Option Nat :=
  alloc.lookup name

/-- Total number of Twitter slots handed out by an allocation
(`sum(allocation.values())`). -/
def sumAlloc (alloc : List (String × Nat)) : Nat :=
  (alloc.map Prod.snd).sum

/-- The four fixed once-daily endpoints of `ENDPOINT_CONFIG`
(`sector_performance`, `economic_calendar`, `vix`, `sec_insider`), each
reserving `max_daily = 1`. -/
def fixedOnlyEndpoints : List EndpointCfg :=
  [{ name := "sector_performance", priority := 4,
     fixedTimes := some [(16, 30)], maxDaily := some 1 },
   { name := "economic_calendar", priority := 4,
     fixedTimes := some [(6, 30)], maxDaily := some 1, dayOfWeek := some "0,2,4" },
   { name := "vix", priority := 4,
     fixedTimes := some [(6, 30)], maxDaily := some 1, dayOfWeek := some "1,3" },
   { name := "sec_insider", priority := 4,
     fixedTimes := some [(6, 30)], maxDaily := some 1, dayOfWeek := some "5,6" }]

/-- The cap-17 scenario: one fixed endpoint reserving 4 slots and three
equal-priority flexible endpoints, in this listing order. -/
def scenarioEndpoints : List EndpointCfg :=
  [{ name := "daily_recap", priority := 4,
     fixedTimes := some [(16, 30)], maxDaily := some 4 },
   { name := "alpha", priority := 1 },
   { name := "beta", priority := 1 },
   { name := "gamma", priority := 1 }]

/-- The posting windows of `OptimalScheduler._generate_times` in minutes of
the day, with `windows.get(window, windows["full_day"])` defaulting any
unknown name to `full_day` (7:00-16:15; `market_hours` is 9:30-15:30). -/
def windowRange (w : String) : Nat × Nat :=
  if w == "full_day" then (7 * 60, 16 * 60 + 15)
  else if w == "market_hours" then (9 * 60 + 30, 15 * 60 + 30)
  else (7 * 60, 16 * 60 + 15)

/-- Round-half-to-even on an exact rational, the behaviour of Python's
`round` (the float arithmetic of `_generate_times` is modelled exactly over
`ℚ`; for the window spans involved the float ties coincide with the exact
rational ties). -/
def roundHalfEven (q : ℚ) : ℤ :=
  if q - ⌊q⌋ < 1 / 2 then ⌊q⌋
  else if 1 / 2 < q - ⌊q⌋ then ⌊q⌋ + 1
  else if ⌊q⌋ % 2 = 0 then ⌊q⌋ else ⌊q⌋ + 1

/-- Core of `OptimalScheduler._generate_times` once the window has been
resolved to its minute range: `n_slots <= 0` gives no slots, `n_slots = 1`
gives the window start, and otherwise slot `i` is
`round(start + i * (end - start) / (n_slots - 1))` minutes, converted to an
(hour, minute) pair by `divmod` 60. -/
def generateTimesRange (n : Nat) (start endMin : Nat) : List (Nat × Nat) :=
  if n = 0 then []
  else if n = 1 then [(start / 60, start % 60)]
  else
    let interval : ℚ := ((endMin : ℚ) - (start : ℚ)) / ((n : ℚ) - 1)
    (List.range n).map (fun (i : Nat) =>
      let t := (roundHalfEven ((start : ℚ) + (i : ℚ) * interval)).toNat
      (t / 60, t % 60))

/-- Embedding of `OptimalScheduler._generate_times`. -/
def generateTimes (n : Nat) (w : String) : List (Nat × Nat) :=
  generateTimesRange n (windowRange w).1 (windowRange w).2

/-- Minute-of-day of an (hour, minute) pair. -/
def toMin (p : Nat × Nat) : Nat :=
  p.1 * 60 + p.2

/-- The `stats` counters of `OptimalScheduler`. -/
structure Stats where
  totalPosts : Nat
  successfulPosts : Nat
  failedPosts : Nat
  skippedDuplicates : Nat
  rateLimitBlocks : Nat
  deriving DecidableEq, Repr

/-- The mutable state touched by one `_post_content` run: the dedup table,
the rate-limit ledger and the stats counters. -/
structure PipelineState where
  dedup : List DedupRow
  ledger : List Int
  stats : Stats
  deriving DecidableEq, Repr

/-- Behaviour of a platform publish collaborator on one attempt:
`post_tweet` / `post_embed` returns `True`, returns `False`, or raises. -/
inductive PlatformOutcome where
  | success
  | failure
  | raised
  deriving DecidableEq, Repr

/-- Inputs of one `_post_content` run: the endpoint name, the payload's
content fingerprint (`_compute_hash(data)`), the API success flag, the
`_has_content` emptiness verdict, whether the AI generator is configured
(`use_ai`), `config.dry_run`, and the outcome each platform collaborator
would produce if invoked. -/
structure PipelineInput where
  endpointName : String
  contentHash : String
  dataSuccess : Bool
  hasContent : Bool
  useAi : Bool
  dryRun : Bool
  discordOutcome : PlatformOutcome
  twitterOutcome : PlatformOutcome
  deriving DecidableEq, Repr

/-- Observable actions of a `_post_content` run, in execution order: an AI
content-generation call for a platform, a dedup-store query for a platform,
the rate-limiter query, a platform publish attempt, a dedup-store insert for
a platform, and a rate-limit ledger insert. -/
inductive Event where
  | genCall (platform : String)
  | dedupCheck (platform : String)
  | rateCheck
  | publishAttempt (platform : String)
  | dedupRecord (platform : String)
  | rateRecord
  deriving DecidableEq, Repr

/-- The Discord half of `_post_content` (inside its own `try`): check the
dedup store; on a duplicate count a skip; otherwise post the embed.  The
boolean returned by `DiscordClient.post_embed` is ignored by the caller, so
both `success` and `failure` fall through to `record_post`; only a raised
exception reaches the `except` arm, which increments `failed_posts`. -/
def discordBlock (inp : PipelineInput) (now : Int) (st : PipelineState) :
    PipelineState × List Event :=
  if isDuplicate st.dedup inp.contentHash inp.endpointName "discord" then
    ({ st with stats := { st.stats with
        skippedDuplicates := st.stats.skippedDuplicates + 1 } },
     [Event.dedupCheck "discord"])
  else
    match inp.discordOutcome with
    | .raised =>
        ({ st with stats := { st.stats with
            failedPosts := st.stats.failedPosts + 1 } },
         [Event.dedupCheck "discord", Event.publishAttempt "discord"])
    | .success | .failure =>
        ({ st with dedup :=
            recordPost st.dedup inp.contentHash inp.endpointName "discord" now },
         [Event.dedupCheck "discord", Event.publishAttempt "discord",
          Event.dedupRecord "discord"])

/-- The Twitter half of `_post_content` (inside its own `try`): check the
dedup store; on a duplicate count a skip; otherwise consult the rate limiter;
if it denies count a rate-limit block; otherwise (outside dry-run) call
`post_tweet` — on `True` record the ledger row then the dedup row and count a
success, on `False` count a failure and return, on a raise count a failure;
in dry-run count a success without publishing. -/
def twitterBlock (inp : PipelineInput) (now : Int) (maxPerMinute maxPerDay : Nat)
    (st : PipelineState) : PipelineState × List Event :=
  if isDuplicate st.dedup inp.contentHash inp.endpointName "twitter" then
    ({ st with stats := { st.stats with
        skippedDuplicates := st.stats.skippedDuplicates + 1 } },
     [Event.dedupCheck "twitter"])
  else
    if (canPost st.ledger now maxPerMinute maxPerDay).1 then
      if !inp.dryRun then
        match inp.twitterOutcome with
        | .success =>
            ({ st with
                ledger := rlRecordPost st.ledger now,
                dedup := recordPost st.dedup inp.contentHash inp.endpointName
                  "twitter" now,
                stats := { st.stats with
                  successfulPosts := st.stats.successfulPosts + 1 } },
             [Event.dedupCheck "twitter", Event.rateCheck,
              Event.publishAttempt "twitter", Event.rateRecord,
              Event.dedupRecord "twitter"])
        | .failure =>
            ({ st with stats := { st.stats with
                failedPosts := st.stats.failedPosts + 1 } },
             [Event.dedupCheck "twitter", Event.rateCheck,
              Event.publishAttempt "twitter"])
        | .raised =>
            ({ st with stats := { st.stats with
                failedPosts := st.stats.failedPosts + 1 } },
             [Event.dedupCheck "twitter", Event.rateCheck,
              Event.publishAttempt "twitter"])
      else
        ({ st with stats := { st.stats with
            successfulPosts := st.stats.successfulPosts + 1 } },
         [Event.dedupCheck "twitter", Event.rateCheck])
    else
      ({ st with stats := { st.stats with
          rateLimitBlocks := st.stats.rateLimitBlocks + 1 } },
       [Event.dedupCheck "twitter", Event.rateCheck])

/-- Embedding of `OptimalScheduler._post_content` as a state transformer that
also reports its trace of observable events.  The run aborts with no effect
when the fetch failed or the payload is empty; otherwise, when `use_ai` is
set, both AI generation calls happen (Twitter text first, then the Discord
description) before `total_posts` is incremented and the Discord and Twitter
blocks run in that order — in particular generation happens before either
dedup check. -/
def postContent (inp : PipelineInput) (now : Int) (maxPerMinute maxPerDay : Nat)
    (st : PipelineState) : PipelineState × List Event :=
  if !inp.dataSuccess then (st, [])
  else if !inp.hasContent then (st, [])
  else
    let genEvents :=
      if inp.useAi then [Event.genCall "twitter", Event.genCall "discord"]
      else []
    let st1 := { st with stats := { st.stats with
        totalPosts := st.stats.totalPosts + 1 } }
    let d := discordBlock inp now st1
    let t := twitterBlock inp now maxPerMinute maxPerDay d.1
    (t.1, genEvents ++ d.2 ++ t.2)

/-- Bool test for generation events. -/
def isGenCall : Event → Bool
  | .genCall _ => true
  | _ => false

/-- Bool test for dedup-check events. -/
def isDedupCheck : Event → Bool
  | .dedupCheck _ => true
  | _ => false

/-- Trace checker: every occurrence of `target` is preceded by an occurrence
of `guard` (scanning left to right, a `target` seen before any `guard`
fails the check). -/
def guardedBefore (guard target : Event) : List Event → Bool
  | [] => true
  | e :: rest =>
      if e = target then false
      else if e = guard then true
      else guardedBefore guard target rest

/-- Trace checker: no generation call occurs at or after a dedup check. -/
def noGenAfterDedup : List Event → Bool
  | [] => true
  | e :: rest =>
      if isDedupCheck e then rest.all (fun x => !isGenCall x)
      else noGenAfterDedup rest

/-- The ordering property claimed for the pipeline: every generation call is
preceded by a dedup check. -/
def dedupBeforeAnyGen (tr : List Event) : Prop :=
  ∀ pre p post, tr = pre ++ Event.genCall p :: post →
    ∃ q, Event.dedupCheck q ∈ pre

/-- Lookup of `ENDPOINT_CONFIG[name]` (`find?` mirrors the unique dict key). -/
def lookupCfg (cfg : List EndpointCfg) (n : String) : Option EndpointCfg :=
  cfg.find? (fun e => e.name == n)

/-- Configs of the active endpoints, in `active_endpoints` order. -/
def activeCfgs (cfg : List EndpointCfg) (active : List String) : List EndpointCfg :=
  active.filterMap (lookupCfg cfg)

/-- Posting times chosen by `add_jobs` for one endpoint: its `fixed_times`
when present, otherwise `n_twitter` generated slots, or 2 Discord-only runs
when the endpoint got no Twitter slots. -/
def timesFor (e : EndpointCfg) (nTwitter : Nat) : List (Nat × Nat) :=
  match e.fixedTimes with
  | some ts => ts
  | none =>
      if 0 < nTwitter then generateTimes nTwitter e.window
      else generateTimes 2 e.window

/-- Two-digit zero padding, as in the `f"{hour:02d}{minute:02d}"` job id. -/
def pad2 (n : Nat) : String :=
  if n < 10 then "0" ++ toString n else toString n

/-- The job id `f"{endpoint_name}_{hour:02d}{minute:02d}"` of `add_jobs`. -/
def jobId (name : String) (h m : Nat) : String :=
  name ++ "_" ++ pad2 h ++ pad2 m

/-- The set of job ids registered by `add_jobs` (APScheduler jobs are keyed
by id with `replace_existing=True`; the nightly `cleanup` job is always
present). -/
def addJobsIds (cfg : List EndpointCfg) (active : List String) (cap : Nat) :
    List String :=
  let cfgs := activeCfgs cfg active
  let alloc := allocateSlots cfgs cap
  (cfgs.map (fun e =>
      (timesFor e ((allocLookup alloc e.name).getD 0)).map
        (fun t => jobId e.name t.1 t.2))).flatten
    ++ ["cleanup"]

/-- State of an `OptimalScheduler` as far as endpoint management is
concerned: the `ENDPOINT_CONFIG` table, the `active_endpoints` list, the
registered job ids, and whether the APScheduler is running. -/
structure SchedulerState where
  cfg : List EndpointCfg
  active : List String
  jobs : List String
  running : Bool
  deriving DecidableEq, Repr

/-- Embedding of `OptimalScheduler._rebalance_schedule`: a no-op while the
scheduler is not running; otherwise every non-cleanup job is removed and
`add_jobs` re-registers the freshly computed job set. -/
def rebalanceSchedule (cap : Nat) (st : SchedulerState) : SchedulerState :=
  if !st.running then st
  else { st with jobs := addJobsIds st.cfg st.active cap }

/-- Embedding of `OptimalScheduler.remove_endpoint`: only when the name is
present in `active_endpoints` is it removed (Python `list.remove` drops the
first occurrence) and the schedule rebalanced; otherwise nothing happens. -/
def removeEndpoint (cap : Nat) (st : SchedulerState) (endpointName : String) :
    SchedulerState :=
  if endpointName ∈ st.active then
    rebalanceSchedule cap { st with active := st.active.erase endpointName }
  else st

end TradingBot

namespace TradingBot

/-- C1: evaluation of the dedup store at the failing input.  Before any record
the triple is not a duplicate; after `record(p, s, discord)` the same triple is
a duplicate while `(p, s, twitter)` and `(p, s2, discord)` are not; but the
later `record(p, s, twitter)` hits the `UNIQUE(content_hash)` constraint, is
silently swallowed, and `is_duplicate(p, s, twitter)` stays `false` — the
claim's "a later record(p, s', f') succeeds and makes is_duplicate true"
fails on the code. -/
theorem dedup_crossPlatform_record_dropped :
    (isDuplicateData (fun _ => "deadbeef") [] "payload" "src" "discord" = false)
    ∧ (isDuplicateData (fun _ => "deadbeef")
        (recordPostData (fun _ => "deadbeef") [] "payload" "src" "discord" 100)
        "payload" "src" "discord" = true)
    ∧ (isDuplicateData (fun _ => "deadbeef")
        (recordPostData (fun _ => "deadbeef") [] "payload" "src" "discord" 100)
        "payload" "src" "twitter" = false)
    ∧ (isDuplicateData (fun _ => "deadbeef")
        (recordPostData (fun _ => "deadbeef") [] "payload" "src" "discord" 100)
        "payload" "src2" "discord" = false)
    ∧ (recordPostData (fun _ => "deadbeef")
        (recordPostData (fun _ => "deadbeef") [] "payload" "src" "discord" 100)
        "payload" "src" "twitter" 200
       = recordPostData (fun _ => "deadbeef") [] "payload" "src" "discord" 100)
    ∧ (isDuplicateData (fun _ => "deadbeef")
        (recordPostData (fun _ => "deadbeef")
          (recordPostData (fun _ => "deadbeef") [] "payload" "src" "discord" 100)
          "payload" "src" "twitter" 200)
        "payload" "src" "twitter" = false) := by
  decide

/-- C7 counterexample: a sweep that removes one record.  The new table is
empty, yet the operation's return value is `none` (Python `None`), not the
removed count `some 1` — `cleanup_old_hashes` never returns the count it
logs. -/
theorem cleanup_returns_none_cex :
    ((cleanupOldHashes [⟨"h", "e", "p", 0⟩] (10 * 86400) 7).1 = [])
    ∧ ((cleanupOldHashes [⟨"h", "e", "p", 0⟩] (10 * 86400) 7).2 = none)
    ∧ ¬ ((cleanupOldHashes [⟨"h", "e", "p", 0⟩] (10 * 86400) 7).2 = some 1) := by
  decide

/-- C7 amended: `cleanup_old_hashes(days)` deletes exactly the records whose
timestamp is strictly older than `now - days`, keeps every record at or after
the cutoff, removes as many rows as match the cutoff predicate — and returns
`None` (the removed count is only logged, never returned). -/
theorem cleanup_amended (store : List DedupRow) (now days : Int) :
    (∀ r ∈ (cleanupOldHashes store now days).1,
        r ∈ store ∧ ¬ r.postedAt < now - days * 86400)
    ∧ (∀ r ∈ store, ¬ r.postedAt < now - days * 86400 →
        r ∈ (cleanupOldHashes store now days).1)
    ∧ ((cleanupOldHashes store now days).1.length
        + store.countP (fun r => decide (r.postedAt < now - days * 86400))
        = store.length)
    ∧ ((cleanupOldHashes store now days).2 = none) := by
  refine ⟨?_, ?_, ?_, rfl⟩
  · intro r hr
    simp only [cleanupOldHashes, List.mem_filter, Bool.not_eq_true',
      decide_eq_false_iff_not] at hr
    exact hr
  · intro r hr hcut
    simp only [cleanupOldHashes, List.mem_filter, Bool.not_eq_true',
      decide_eq_false_iff_not]
    exact ⟨hr, hcut⟩
  · simp only [cleanupOldHashes]
    induction store with
    | nil => simp
    | cons r rest ih =>
      by_cases h : r.postedAt < now - days * 86400 <;>
        simp [List.filter_cons, List.countP_cons, h] <;> omega

/-- C7 amended witness: in a two-record table swept at day 10 with 7-day
retention, the record from day 9 survives (it is at or after the cutoff). -/
theorem cleanup_amended_witness :
    (⟨"h", "e", "p", 9 * 86400⟩ : DedupRow)
      ∈ (cleanupOldHashes [⟨"h", "e", "p", 9 * 86400⟩, ⟨"g", "e", "p", 0⟩]
          (10 * 86400) 7).1 :=
  (cleanup_amended [⟨"h", "e", "p", 9 * 86400⟩, ⟨"g", "e", "p", 0⟩]
      (10 * 86400) 7).2.1
    ⟨"h", "e", "p", 9 * 86400⟩ (by decide) (by decide)

/-- C6: `can_post` first compares the trailing-60-second ledger count with the
minute cap and denies with the per-minute reason when it is reached; otherwise
it compares the trailing-24-hour count with the daily cap and denies with the
per-day reason; otherwise it allows with no reason.  Concretely, with caps
1/minute and 15/day, a single publish recorded 10 seconds before the check is
denied per-minute, and a check 61 seconds after that publish allows. -/
theorem canPost_spec (ledger : List Int) (now : Int) (maxPerMinute maxPerDay : Nat) :
    (maxPerMinute ≤ countSince ledger (now - 60) →
      canPost ledger now maxPerMinute maxPerDay = (false, some (perMinuteReason 0)))
    ∧ (countSince ledger (now - 60) < maxPerMinute →
        maxPerDay ≤ countSince ledger (now - 86400) →
        canPost ledger now maxPerMinute maxPerDay = (false, some (dailyReason maxPerDay)))
    ∧ (countSince ledger (now - 60) < maxPerMinute →
        countSince ledger (now - 86400) < maxPerDay →
        canPost ledger now maxPerMinute maxPerDay = (true, none))
    ∧ canPost [100] 110 1 15 = (false, some (perMinuteReason 0))
    ∧ canPost [100] 161 1 15 = (true, none) := by
  refine ⟨?_, ?_, ?_, by decide, by decide⟩
  · intro h
    have h60 : (60 : Int) - (now - (now - 60)) = 0 := by ring
    simp only [canPost]
    rw [if_pos h, h60]
  · intro h1 h2
    simp only [canPost]
    rw [if_neg (by omega), if_pos h2]
  · intro h1 h2
    simp only [canPost]
    rw [if_neg (by omega), if_neg (by omega)]

/-- C6 witness: the concrete scenario, obtained from `canPost_spec` by
discharging its per-minute hypothesis at the recorded-10-seconds-ago ledger. -/
theorem canPost_spec_witness :
    canPost [100] 110 1 15 = (false, some (perMinuteReason 0)) :=
  (canPost_spec [100] 110 1 15).1 (by decide)

/-- C9: `_generate_times` is total in the window argument — an unrecognized
window name resolves, via `windows.get(window, windows["full_day"])`, to the
full-day range 7:00-16:15 (minutes 420-975), so the generated slot times are
exactly those of `full_day`. -/
theorem generateTimes_unknown_window (n : Nat) (w : String)
    (h1 : w ≠ "full_day") (h2 : w ≠ "market_hours") :
    windowRange w = (420, 975)
    ∧ generateTimes n w = generateTimes n "full_day" := by
  have hw : windowRange w = (420, 975) := by
    simp [windowRange, h1, h2]
  have hfd : windowRange "full_day" = (420, 975) := by decide
  refine ⟨hw, ?_⟩
  simp only [generateTimes, hw, hfd]

/-- C9 witness: the unknown window name "bogus" produces full-day slots. -/
theorem generateTimes_unknown_window_witness :
    windowRange "bogus" = (420, 975)
    ∧ generateTimes 5 "bogus" = generateTimes 5 "full_day" :=
  generateTimes_unknown_window 5 "bogus" (by decide) (by decide)

/-- C10: removing an endpoint name that is not in the active set is a
complete no-op — the state (active endpoint list, registered job set, config
table, running flag) is returned unchanged and no rebalance happens. -/
theorem removeEndpoint_unknown_noop (cap : Nat) (st : SchedulerState)
    (name : String) (h : name ∉ st.active) :
    removeEndpoint cap st name = st
    ∧ (removeEndpoint cap st name).active = st.active
    ∧ (removeEndpoint cap st name).jobs = st.jobs := by
  have hmain : removeEndpoint cap st name = st := by
    simp [removeEndpoint, h]
  exact ⟨hmain, by rw [hmain], by rw [hmain]⟩

/-- C10 witness: removing the unknown name "b" from a running scheduler whose
only active endpoint is "a" changes nothing. -/
theorem removeEndpoint_unknown_noop_witness :
    removeEndpoint 15 ⟨[], ["a"], ["cleanup"], true⟩ "b"
      = (⟨[], ["a"], ["cleanup"], true⟩ : SchedulerState)
    ∧ (removeEndpoint 15 ⟨[], ["a"], ["cleanup"], true⟩ "b").active = ["a"]
    ∧ (removeEndpoint 15 ⟨[], ["a"], ["cleanup"], true⟩ "b").jobs = ["cleanup"] :=
  removeEndpoint_unknown_noop 15 ⟨[], ["a"], ["cleanup"], true⟩ "b" (by decide)

/-- C3 counterexample: with the four once-daily fixed endpoints of
`ENDPOINT_CONFIG` (each `max_daily = 1`) active and the configured daily cap
set to 2, `_allocate_slots` hands out 4 slots — the total allocation exceeds
the daily cap, because fixed endpoints are reserved unconditionally. -/
theorem allocate_cap_exceeded_cex :
    (∀ e ∈ fixedOnlyEndpoints, e.maxDaily = some 1)
    ∧ sumAlloc (allocateSlots fixedOnlyEndpoints 2) = 4
    ∧ ¬ sumAlloc (allocateSlots fixedOnlyEndpoints 2) ≤ 2 := by
  decide

/-- C8: evaluation of the pipeline at the failing input and at conforming
ones.  First run: the Discord collaborator returns `False` (e.g. no webhook
configured), yet `_post_content` ignores `post_embed`'s return value — the
dedup store is advanced with a Discord publish record and the failure counter
stays 0, contradicting the claim.  Second run: a raised Discord error and a
`False` Twitter return behave as claimed — two failures counted, dedup store
and rate-limit ledger untouched. -/
theorem postContent_discord_failure_bug :
    ((postContent ⟨"e", "h", true, true, false, false, .failure, .success⟩
        50 1 15 ⟨[], [], ⟨0, 0, 0, 0, 0⟩⟩).1.dedup
      = [⟨"h", "e", "discord", 50⟩])
    ∧ ((postContent ⟨"e", "h", true, true, false, false, .failure, .success⟩
        50 1 15 ⟨[], [], ⟨0, 0, 0, 0, 0⟩⟩).1.stats.failedPosts = 0)
    ∧ ((postContent ⟨"e", "h", true, true, false, false, .raised, .failure⟩
        50 1 15 ⟨[], [], ⟨0, 0, 0, 0, 0⟩⟩).1.dedup = [])
    ∧ ((postContent ⟨"e", "h", true, true, false, false, .raised, .failure⟩
        50 1 15 ⟨[], [], ⟨0, 0, 0, 0, 0⟩⟩).1.ledger = [])
    ∧ ((postContent ⟨"e", "h", true, true, false, false, .raised, .failure⟩
        50 1 15 ⟨[], [], ⟨0, 0, 0, 0, 0⟩⟩).1.stats.failedPosts = 2) := by
  decide

/-- C2 counterexample: a run in which the content is already recorded for
Discord and the AI generator is enabled.  Both generation calls are the first
two events of the trace, before either dedup check — the dedup check does not
happen before generation, and generation calls are spent on duplicate
content. -/
theorem postContent_gen_before_dedup_cex :
    isDuplicate [⟨"h", "e", "discord", 0⟩] "h" "e" "discord" = true
    ∧ (postContent ⟨"e", "h", true, true, true, true, .success, .success⟩ 0 1 15
        ⟨[⟨"h", "e", "discord", 0⟩], [], ⟨0, 0, 0, 0, 0⟩⟩).2
      = [Event.genCall "twitter", Event.genCall "discord",
         Event.dedupCheck "discord", Event.dedupCheck "twitter", Event.rateCheck]
    ∧ ¬ dedupBeforeAnyGen
        (postContent ⟨"e", "h", true, true, true, true, .success, .success⟩ 0 1 15
          ⟨[⟨"h", "e", "discord", 0⟩], [], ⟨0, 0, 0, 0, 0⟩⟩).2 := by
  have htr : (postContent ⟨"e", "h", true, true, true, true, .success, .success⟩
        0 1 15 ⟨[⟨"h", "e", "discord", 0⟩], [], ⟨0, 0, 0, 0, 0⟩⟩).2
      = [Event.genCall "twitter", Event.genCall "discord",
         Event.dedupCheck "discord", Event.dedupCheck "twitter", Event.rateCheck] := by
    decide
  refine ⟨by decide, htr, ?_⟩
  intro hcl
  obtain ⟨q, hq⟩ := hcl []
    "twitter"
    [Event.genCall "discord", Event.dedupCheck "discord",
     Event.dedupCheck "twitter", Event.rateCheck]
    (by rw [htr]; rfl)
  exact absurd hq (List.not_mem_nil _)

/-- Inserting into a list yields a permutation of consing. -/
theorem insertByPriority_perm (e : EndpointCfg) (l : List EndpointCfg) :
    (insertByPriority e l).Perm (e :: l) := by
  induction l with
  | nil => exact List.Perm.refl _
  | cons x xs ih =>
    unfold insertByPriority
    by_cases h : e.priority ≤ x.priority
    · rw [if_pos h]
    · rw [if_neg h]
      exact (ih.cons x).trans (List.Perm.swap e x xs)

/-- The stable sort permutes its input. -/
theorem sortByPriority_perm (l : List EndpointCfg) : (sortByPriority l).Perm l := by
  induction l with
  | nil => exact List.Perm.refl _
  | cons x xs ih =>
    exact (insertByPriority_perm x (sortByPriority xs)).trans (ih.cons x)

/-- Inserting preserves sortedness by ascending priority value. -/
theorem insertByPriority_pairwise (e : EndpointCfg) (l : List EndpointCfg)
    (h : l.Pairwise (fun a b => a.priority ≤ b.priority)) :
    (insertByPriority e l).Pairwise (fun a b => a.priority ≤ b.priority) := by
  induction l with
  | nil => simp [insertByPriority]
  | cons x xs ih =>
    rw [List.pairwise_cons] at h
    obtain ⟨hx, hxs⟩ := h
    unfold insertByPriority
    by_cases hc : e.priority ≤ x.priority
    · rw [if_pos hc, List.pairwise_cons]
      refine ⟨?_, List.pairwise_cons.mpr ⟨hx, hxs⟩⟩
      intro b hb
      rcases List.mem_cons.mp hb with hb | hb
      · exact hb ▸ hc
      · exact le_trans hc (hx b hb)
    · rw [if_neg hc, List.pairwise_cons]
      refine ⟨?_, ih hxs⟩
      intro b hb
      have hb' : b ∈ e :: xs := (insertByPriority_perm e xs).mem_iff.mp hb
      rcases List.mem_cons.mp hb' with hb' | hb'
      · exact hb' ▸ le_of_not_le hc
      · exact hx b hb'

/-- The sorted flexible list is sorted by ascending priority value. -/
theorem sortByPriority_pairwise (l : List EndpointCfg) :
    (sortByPriority l).Pairwise (fun a b => a.priority ≤ b.priority) := by
  induction l with
  | nil => simp [sortByPriority]
  | cons x xs ih => exact insertByPriority_pairwise x (sortByPriority xs) ih

/-- Lookup misses an association list none of whose keys match. -/
theorem lookup_map_name_none (f : EndpointCfg → Nat) (key : String) :
    ∀ l : List EndpointCfg, (∀ x ∈ l, x.name ≠ key) →
      List.lookup key (l.map (fun x => (x.name, f x))) = none := by
  intro l
  induction l with
  | nil => intro _; rfl
  | cons x xs ih =>
    intro h
    have hx : x.name ≠ key := h x (List.mem_cons_self x xs)
    have hc : (key == x.name) = false :=
      beq_eq_false_iff_ne.mpr (fun hk => hx hk.symm)
    rw [List.map_cons, List.lookup_cons, hc]
    exact ih (fun y hy => h y (List.mem_cons_of_mem x hy))

/-- Lookup of a present endpoint in a keyed map of a name-nodup list. -/
theorem lookup_map_name (f : EndpointCfg → Nat) :
    ∀ (l : List EndpointCfg), (l.map EndpointCfg.name).Nodup →
      ∀ {e : EndpointCfg}, e ∈ l →
      List.lookup e.name (l.map (fun x => (x.name, f x))) = some (f e) := by
  intro l
  induction l with
  | nil => intro _ e he; exact absurd he (List.not_mem_nil e)
  | cons x xs ih =>
    intro hnd e he
    rw [List.map_cons, List.nodup_cons] at hnd
    obtain ⟨hx, hxs⟩ := hnd
    rcases List.mem_cons.mp he with he | he
    · subst he
      simp [List.lookup_cons]
    · have hne : e.name ≠ x.name := by
        intro hk
        exact hx (hk ▸ List.mem_map_of_mem EndpointCfg.name he)
      have hc : (e.name == x.name) = false := beq_eq_false_iff_ne.mpr hne
      rw [List.map_cons, List.lookup_cons, hc]
      exact ih hxs he

/-- Lookup of a present endpoint in the indexed (enumerated) keyed map of a
name-nodup list: the result applies the index function at the endpoint's
position. -/
theorem lookup_enumFrom_map (f : Nat → Nat) :
    ∀ (l : List EndpointCfg) (k : Nat), (l.map EndpointCfg.name).Nodup →
      ∀ {e : EndpointCfg}, e ∈ l →
      ∃ i, l.get? i = some e
        ∧ List.lookup e.name
            ((l.enumFrom k).map (fun p => (p.2.name, f p.1))) = some (f (k + i)) := by
  intro l
  induction l with
  | nil => intro k _ e he; exact absurd he (List.not_mem_nil e)
  | cons x xs ih =>
    intro k hnd e he
    rw [List.map_cons, List.nodup_cons] at hnd
    obtain ⟨hx, hxs⟩ := hnd
    rcases List.mem_cons.mp he with he | he
    · subst he
      refine ⟨0, rfl, ?_⟩
      simp [List.enumFrom_cons, List.lookup_cons]
    · have hne : e.name ≠ x.name := by
        intro hk
        exact hx (hk ▸ List.mem_map_of_mem EndpointCfg.name he)
      have hc : (e.name == x.name) = false := beq_eq_false_iff_ne.mpr hne
      obtain ⟨i, hi, hl⟩ := ih (k + 1) hxs he
      refine ⟨i + 1, by simpa using hi, ?_⟩
      rw [List.enumFrom_cons, List.map_cons, List.lookup_cons, hc, hl]
      have harith : k + 1 + i = k + (i + 1) := by omega
      rw [harith]

/-- Lookup distributes over append when the key hits the left part. -/
theorem lookup_append_left {β : Type} (key : String) (b : β) :
    ∀ (l₁ l₂ : List (String × β)), List.lookup key l₁ = some b →
      List.lookup key (l₁ ++ l₂) = some b := by
  intro l₁
  induction l₁ with
  | nil => intro l₂ h; exact absurd h (by simp [List.lookup])
  | cons p ps ih =>
    intro l₂ h
    cases hc : (key == p.1) with
    | true =>
        rw [List.lookup_cons, hc] at h
        rw [List.cons_append, List.lookup_cons, hc]
        exact h
    | false =>
        rw [List.lookup_cons, hc] at h
        rw [List.cons_append, List.lookup_cons, hc]
        exact ih l₂ h

/-- Lookup distributes over append when the key misses the left part. -/
theorem lookup_append_right {β : Type} (key : String) :
    ∀ (l₁ l₂ : List (String × β)), List.lookup key l₁ = none →
      List.lookup key (l₁ ++ l₂) = List.lookup key l₂ := by
  intro l₁
  induction l₁ with
  | nil => intro l₂ _; rfl
  | cons p ps ih =>
    intro l₂ h
    cases hc : (key == p.1) with
    | true =>
        rw [List.lookup_cons, hc] at h
        exact absurd h (by simp)
    | false =>
        rw [List.lookup_cons, hc] at h
        rw [List.cons_append, List.lookup_cons, hc]
        exact ih l₂ h

/-- Summing the values of a name-keyed map built from a list. -/
theorem sumAlloc_map_name (f : EndpointCfg → Nat) (l : List EndpointCfg) :
    sumAlloc (l.map (fun e => (e.name, f e))) = (l.map f).sum := by
  unfold sumAlloc
  rw [List.map_map]
  rfl

/-- Summing the values of an index-keyed map built from an enumeration. -/
theorem sumAlloc_enum_map (f : Nat → Nat) (l : List EndpointCfg) :
    sumAlloc (l.enum.map (fun p => (p.2.name, f p.1)))
      = ((List.range l.length).map f).sum := by
  unfold sumAlloc
  rw [List.map_map]
  rw [show (Prod.snd ∘ fun p : Nat × EndpointCfg => (p.2.name, f p.1))
        = (f ∘ Prod.fst) from rfl]
  rw [← List.map_map, List.enum_map_fst]


/-- Allocation totals add over append. -/
theorem sumAlloc_append (a b : List (String × Nat)) :
    sumAlloc (a ++ b) = sumAlloc a + sumAlloc b := by
  simp [sumAlloc]

/-- Sum of `base + (1 if i < extra else 0)` over `range n`. -/
theorem sum_range_base_extra (base : Nat) :
    ∀ n extra : Nat,
      ((List.range n).map (fun i => base + if i < extra then 1 else 0)).sum
        = n * base + min extra n := by
  intro n
  induction n with
  | zero => intro extra; simp
  | succ n ih =>
    intro extra
    rw [List.range_succ, List.map_append, List.sum_append, ih extra]
    simp only [List.map_cons, List.map_nil, List.sum_cons, List.sum_nil]
    rw [Nat.succ_mul]
    by_cases h : n < extra
    · rw [if_pos h]; omega
    · rw [if_neg h]; omega

/-- Summing the flexible part of the allocation: the base share times the
number of flexible endpoints plus one per leftover slot. -/
theorem sumAlloc_enum_base_extra (base extra : Nat) (l : List EndpointCfg) :
    sumAlloc (l.enum.map
        (fun p => (p.2.name, base + if p.1 < extra then 1 else 0)))
      = l.length * base + min extra l.length := by
  rw [sumAlloc_enum_map (fun i => base + if i < extra then 1 else 0) l,
    sum_range_base_extra]

/-- Total slots handed out by `_allocate_slots`: the fixed reservations plus,
when any flexible endpoint exists, exactly the (truncated) remaining cap. -/
theorem sumAlloc_allocateSlots (eps : List EndpointCfg) (cap : Nat) :
    sumAlloc (allocateSlots eps cap)
      = fixedSum eps
        + (if (eps.filter (fun e => !e.maxDaily.isSome)).isEmpty then 0
           else cap - fixedSum eps) := by
  have hfixed : sumAlloc ((eps.filter (fun e => e.maxDaily.isSome)).map
      (fun e => (e.name, e.maxDaily.getD 0))) = fixedSum eps := by
    rw [sumAlloc_map_name]
    rfl
  simp only [allocateSlots]
  by_cases h1 : (eps.filter (fun e => !e.maxDaily.isSome)).isEmpty
  · rw [if_pos h1, if_pos h1, hfixed, Nat.add_zero]
  · rw [if_neg h1, if_neg h1]
    by_cases h2 : cap ≤ fixedSum eps
    · rw [if_pos h2, sumAlloc_append, hfixed, sumAlloc_map_name]
      have hz : ((eps.filter (fun e => !e.maxDaily.isSome)).map
          (fun _ => 0)).sum = 0 := by
        simp
      rw [hz]
      omega
    · rw [if_neg h2, sumAlloc_append, hfixed, sumAlloc_enum_base_extra]
      have hlen : (sortByPriority (eps.filter (fun e => !e.maxDaily.isSome))).length
          = (eps.filter (fun e => !e.maxDaily.isSome)).length :=
        (sortByPriority_perm _).length_eq
      have hpos : 0 < (eps.filter (fun e => !e.maxDaily.isSome)).length := by
        cases hfe : eps.filter (fun e => !e.maxDaily.isSome) with
        | nil => rw [hfe] at h1; exact absurd rfl h1
        | cons a l => exact Nat.succ_pos _
      rw [hlen]
      have hmin : min ((cap - fixedSum eps)
            % (eps.filter (fun e => !e.maxDaily.isSome)).length)
            (eps.filter (fun e => !e.maxDaily.isSome)).length
          = (cap - fixedSum eps)
            % (eps.filter (fun e => !e.maxDaily.isSome)).length :=
        Nat.min_eq_left (Nat.le_of_lt (Nat.mod_lt _ hpos))
      rw [hmin, Nat.div_add_mod]

/-- A flexible endpoint's name never keys the fixed part of the allocation
(names are unique across the active list). -/
theorem flex_name_not_fixed (eps : List EndpointCfg)
    (hnd : (eps.map EndpointCfg.name).Nodup)
    {e : EndpointCfg} (he : e ∈ eps) (hm : e.maxDaily = none) :
    ∀ x ∈ eps.filter (fun x => x.maxDaily.isSome), x.name ≠ e.name := by
  intro x hx hxy
  obtain ⟨hx1, hx2⟩ := List.mem_filter.mp hx
  have hxe : x = e := List.inj_on_of_nodup_map hnd hx1 he hxy
  rw [hxe, hm] at hx2
  exact absurd hx2 (by simp)

/-- Lookup of a fixed endpoint in the allocation: exactly its `max_daily`. -/
theorem allocLookup_fixed (eps : List EndpointCfg) (cap : Nat)
    (hnd : (eps.map EndpointCfg.name).Nodup)
    {e : EndpointCfg} (he : e ∈ eps) {k : Nat} (hk : e.maxDaily = some k) :
    allocLookup (allocateSlots eps cap) e.name = some k := by
  have hef : e ∈ eps.filter (fun x => x.maxDaily.isSome) :=
    List.mem_filter.mpr ⟨he, by rw [hk]; rfl⟩
  have hndf : ((eps.filter (fun x => x.maxDaily.isSome)).map EndpointCfg.name).Nodup :=
    ((List.filter_sublist eps).map EndpointCfg.name).nodup hnd
  have hlook : List.lookup e.name
      ((eps.filter (fun x => x.maxDaily.isSome)).map
        (fun x => (x.name, x.maxDaily.getD 0))) = some k := by
    rw [lookup_map_name (fun x => x.maxDaily.getD 0) _ hndf hef, hk]
    rfl
  simp only [allocLookup, allocateSlots]
  by_cases h1 : (eps.filter (fun e => !e.maxDaily.isSome)).isEmpty
  · rw [if_pos h1]
    exact hlook
  · rw [if_neg h1]
    by_cases h2 : cap ≤ fixedSum eps
    · rw [if_pos h2]
      exact lookup_append_left _ _ _ _ hlook
    · rw [if_neg h2]
      exact lookup_append_left _ _ _ _ hlook

/-- Lookup of a flexible endpoint in the allocation: zero when the fixed
reservations consume the cap, otherwise `base` plus one exactly when the
endpoint sits within the first `remaining % n` positions of the
priority-sorted flexible list. -/
theorem allocLookup_flex (eps : List EndpointCfg) (cap : Nat)
    (hnd : (eps.map EndpointCfg.name).Nodup)
    {e : EndpointCfg} (he : e ∈ eps) (hm : e.maxDaily = none) :
    (cap ≤ fixedSum eps → allocLookup (allocateSlots eps cap) e.name = some 0)
    ∧ (fixedSum eps < cap →
        ∃ i, (sortByPriority (eps.filter (fun x => !x.maxDaily.isSome))).get? i
              = some e
          ∧ allocLookup (allocateSlots eps cap) e.name
            = some ((cap - fixedSum eps)
                  / (eps.filter (fun x => !x.maxDaily.isSome)).length
                + if i < (cap - fixedSum eps)
                      % (eps.filter (fun x => !x.maxDaily.isSome)).length
                  then 1 else 0)) := by
  have hef : e ∈ eps.filter (fun x => !x.maxDaily.isSome) :=
    List.mem_filter.mpr ⟨he, by rw [hm]; rfl⟩
  have h1 : (eps.filter (fun x => !x.maxDaily.isSome)).isEmpty = false := by
    cases hfe : eps.filter (fun x => !x.maxDaily.isSome) with
    | nil => rw [hfe] at hef; exact absurd hef (List.not_mem_nil e)
    | cons a l => rfl
  have hmiss : List.lookup e.name
      ((eps.filter (fun x => x.maxDaily.isSome)).map
        (fun x => (x.name, x.maxDaily.getD 0))) = none :=
    lookup_map_name_none _ _ _ (flex_name_not_fixed eps hnd he hm)
  have hndflex : ((eps.filter (fun x => !x.maxDaily.isSome)).map
      EndpointCfg.name).Nodup :=
    ((List.filter_sublist eps).map EndpointCfg.name).nodup hnd
  constructor
  · intro hcap
    simp only [allocLookup, allocateSlots]
    rw [if_neg (by rw [h1]; exact fun hq => Bool.false_ne_true hq), if_pos hcap]
    rw [lookup_append_right _ _ _ hmiss]
    exact lookup_map_name (fun _ => 0) _ hndflex hef
  · intro hcap
    have hnds : ((sortByPriority (eps.filter (fun x => !x.maxDaily.isSome))).map
        EndpointCfg.name).Nodup :=
      (((sortByPriority_perm _).map EndpointCfg.name).nodup_iff).mpr hndflex
    have hes : e ∈ sortByPriority (eps.filter (fun x => !x.maxDaily.isSome)) :=
      (sortByPriority_perm _).mem_iff.mpr hef
    obtain ⟨i, hgi, hli⟩ := lookup_enumFrom_map
      (fun i => (cap - fixedSum eps)
          / (eps.filter (fun x => !x.maxDaily.isSome)).length
        + if i < (cap - fixedSum eps)
              % (eps.filter (fun x => !x.maxDaily.isSome)).length
          then 1 else 0)
      (sortByPriority (eps.filter (fun x => !x.maxDaily.isSome))) 0 hnds hes
    refine ⟨i, hgi, ?_⟩
    simp only [allocLookup, allocateSlots]
    rw [if_neg (by rw [h1]; exact fun hq => Bool.false_ne_true hq),
      if_neg (by omega)]
    rw [lookup_append_right _ _ _ hmiss]
    rw [show List.enum = List.enumFrom 0 from rfl]
    rw [hli, Nat.zero_add]

/-- C3 amended: for every active endpoint list with distinct names and every
daily cap, the total allocation is bounded by `max(cap, sum of fixed
reservations)` — so it respects the cap exactly when the fixed reservations
fit within it — and every fixed endpoint is allocated exactly its configured
`max_daily`, regardless of cap pressure. -/
theorem allocate_amended (eps : List EndpointCfg) (cap : Nat)
    (hnd : (eps.map EndpointCfg.name).Nodup) :
    sumAlloc (allocateSlots eps cap) ≤ max cap (fixedSum eps)
    ∧ (∀ e ∈ eps, ∀ k, e.maxDaily = some k →
        allocLookup (allocateSlots eps cap) e.name = some k) := by
  constructor
  · rw [sumAlloc_allocateSlots]
    by_cases h : (eps.filter (fun e => !e.maxDaily.isSome)).isEmpty
    · rw [if_pos h]; omega
    · rw [if_neg h]; omega
  · intro e he k hk
    exact allocLookup_fixed eps cap hnd he hk

/-- C3 amended witness: with the four fixed once-daily endpoints and cap 2,
the total stays within `max(2, 4) = 4` and `vix` keeps its reserved slot. -/
theorem allocate_amended_witness :
    sumAlloc (allocateSlots fixedOnlyEndpoints 2)
      ≤ max 2 (fixedSum fixedOnlyEndpoints)
    ∧ allocLookup (allocateSlots fixedOnlyEndpoints 2) "vix" = some 1 :=
  ⟨(allocate_amended fixedOnlyEndpoints 2 (by decide)).1,
   (allocate_amended fixedOnlyEndpoints 2 (by decide)).2
     { name := "vix", priority := 4, fixedTimes := some [(6, 30)],
       maxDaily := some 1, dayOfWeek := some "1,3" }
     (by decide) 1 rfl⟩

/-- C4: for every active endpoint list with distinct names and every cap,
the flexible endpoints together receive at most `max(0, cap - fixed)` slots
(the fixed reservations account for the rest of the total); a flexible
endpoint with strictly higher priority (lower tier value) never receives
fewer slots than a lower-priority one; every flexible endpoint receives at
least `(cap - fixed) / n` slots; and, concretely, with cap 17, one fixed
endpoint reserving 4 and three equal-priority flexible endpoints, the
allocation is 4 each with the extra slot going to the earliest-listed
flexible endpoint. -/
theorem allocate_flex_properties (eps : List EndpointCfg) (cap : Nat)
    (hnd : (eps.map EndpointCfg.name).Nodup) :
    (∃ flexTotal ≤ cap - fixedSum eps,
        sumAlloc (allocateSlots eps cap) = fixedSum eps + flexTotal)
    ∧ (∀ e1 ∈ eps, ∀ e2 ∈ eps, e1.maxDaily = none → e2.maxDaily = none →
        e1.priority < e2.priority →
        ∃ v1 v2, allocLookup (allocateSlots eps cap) e1.name = some v1
          ∧ allocLookup (allocateSlots eps cap) e2.name = some v2
          ∧ v2 ≤ v1)
    ∧ (∀ e ∈ eps, e.maxDaily = none →
        ∃ v, allocLookup (allocateSlots eps cap) e.name = some v
          ∧ (cap - fixedSum eps)
              / (eps.filter (fun x => !x.maxDaily.isSome)).length ≤ v)
    ∧ allocateSlots scenarioEndpoints 17
        = [("daily_recap", 4), ("alpha", 5), ("beta", 4), ("gamma", 4)] := by
  refine ⟨?_, ?_, ?_, by decide⟩
  · rw [sumAlloc_allocateSlots]
    by_cases h : (eps.filter (fun e => !e.maxDaily.isSome)).isEmpty
    · exact ⟨0, Nat.zero_le _, by rw [if_pos h]⟩
    · exact ⟨cap - fixedSum eps, Nat.le_refl _, by rw [if_neg h]⟩
  · intro e1 he1 e2 he2 hm1 hm2 hp
    by_cases hcap : cap ≤ fixedSum eps
    · exact ⟨0, 0, (allocLookup_flex eps cap hnd he1 hm1).1 hcap,
        (allocLookup_flex eps cap hnd he2 hm2).1 hcap, Nat.le_refl 0⟩
    · obtain ⟨i1, hg1, hl1⟩ :=
        (allocLookup_flex eps cap hnd he1 hm1).2 (by omega)
      obtain ⟨i2, hg2, hl2⟩ :=
        (allocLookup_flex eps cap hnd he2 hm2).2 (by omega)
      refine ⟨_, _, hl1, hl2, ?_⟩
      obtain ⟨hlen1, hget1⟩ := List.get?_eq_some.mp hg1
      obtain ⟨hlen2, hget2⟩ := List.get?_eq_some.mp hg2
      have hpair := List.pairwise_iff_get.mp
        (sortByPriority_pairwise (eps.filter (fun x => !x.maxDaily.isSome)))
      have hi12 : i1 < i2 := by
        rcases Nat.lt_trichotomy i1 i2 with h | h | h
        · exact h
        · exfalso
          have : e1 = e2 := by
            rw [← hget1, ← hget2]
            congr 1
            exact Fin.ext h
          rw [this] at hp
          exact absurd hp (lt_irrefl _)
        · exfalso
          have := hpair ⟨i2, hlen2⟩ ⟨i1, hlen1⟩ h
          rw [hget1, hget2] at this
          omega
      by_cases hx : i2 < (cap - fixedSum eps)
          % (eps.filter (fun x => !x.maxDaily.isSome)).length
      · rw [if_pos hx, if_pos (by omega)]
      · rw [if_neg hx]
        by_cases hy : i1 < (cap - fixedSum eps)
            % (eps.filter (fun x => !x.maxDaily.isSome)).length
        · rw [if_pos hy]; omega
        · rw [if_neg hy]
  · intro e he hm
    by_cases hcap : cap ≤ fixedSum eps
    · refine ⟨0, (allocLookup_flex eps cap hnd he hm).1 hcap, ?_⟩
      have : cap - fixedSum eps = 0 := Nat.sub_eq_zero_of_le hcap
      rw [this]
      simp
    · obtain ⟨i, _, hl⟩ := (allocLookup_flex eps cap hnd he hm).2 (by omega)
      exact ⟨_, hl, Nat.le_add_right _ _⟩

/-- C4 witness: in the cap-17 scenario the earliest flexible endpoint
`alpha` receives at least the base share `13 / 3 = 4` (in fact 5). -/
theorem allocate_flex_properties_witness :
    ∃ v, allocLookup (allocateSlots scenarioEndpoints 17) "alpha" = some v
      ∧ (17 - fixedSum scenarioEndpoints)
          / (scenarioEndpoints.filter (fun x => !x.maxDaily.isSome)).length
        ≤ v :=
  (allocate_flex_properties scenarioEndpoints 17 (by decide)).2.2.1
    { name := "alpha", priority := 1 } (by decide) rfl

/-- Rounding an integer is the identity. -/
theorem roundHalfEven_intCast (k : ℤ) : roundHalfEven (k : ℚ) = k := by
  unfold roundHalfEven
  rw [Int.floor_intCast]
  rw [if_pos (by norm_num)]

/-- Rounding a natural number is the identity. -/
theorem roundHalfEven_natCast (k : Nat) : roundHalfEven (k : ℚ) = (k : ℤ) := by
  have h := roundHalfEven_intCast (k : ℤ)
  rw [Int.cast_natCast] at h
  exact h

/-- Rounding never goes below the floor. -/
theorem roundHalfEven_ge_floor (q : ℚ) : ⌊q⌋ ≤ roundHalfEven q := by
  unfold roundHalfEven
  split_ifs <;> omega

/-- Rounding never exceeds the floor plus one. -/
theorem roundHalfEven_le_floor_add_one (q : ℚ) : roundHalfEven q ≤ ⌊q⌋ + 1 := by
  unfold roundHalfEven
  split_ifs <;> omega

/-- Round-half-to-even is monotone. -/
theorem roundHalfEven_mono {q r : ℚ} (h : q ≤ r) :
    roundHalfEven q ≤ roundHalfEven r := by
  rcases lt_or_eq_of_le (Int.floor_le_floor h) with hf | hf
  · calc roundHalfEven q ≤ ⌊q⌋ + 1 := roundHalfEven_le_floor_add_one q
      _ ≤ ⌊r⌋ := by omega
      _ ≤ roundHalfEven r := roundHalfEven_ge_floor r
  · unfold roundHalfEven
    rw [← hf]
    split_ifs <;> first | omega | linarith

/-- Core specification of `_generate_times` on a resolved minute window:
`n` slots, first at the window start, last at the window end, non-decreasing
in minute-of-day, each slot at the evenly-spaced rounded position; zero slots
give the empty list and one slot gives the window start. -/
theorem generateTimesRange_spec (n start endMin : Nat) (hn : 2 ≤ n)
    (hse : start ≤ endMin) :
    (generateTimesRange n start endMin).length = n
    ∧ (generateTimesRange n start endMin).head?
        = some (start / 60, start % 60)
    ∧ (generateTimesRange n start endMin).getLast?
        = some (endMin / 60, endMin % 60)
    ∧ List.Chain' (fun a b => toMin a ≤ toMin b)
        (generateTimesRange n start endMin)
    ∧ (∀ i, i < n →
        (generateTimesRange n start endMin).get? i
          = some
            ((roundHalfEven ((start : ℚ)
                + (i : ℚ) * (((endMin : ℚ) - (start : ℚ))
                    / ((n : ℚ) - 1)))).toNat / 60,
             (roundHalfEven ((start : ℚ)
                + (i : ℚ) * (((endMin : ℚ) - (start : ℚ))
                    / ((n : ℚ) - 1)))).toNat % 60))
    ∧ generateTimesRange 0 start endMin = []
    ∧ generateTimesRange 1 start endMin = [(start / 60, start % 60)] := by
  have hn0 : ¬ n = 0 := by omega
  have hn1 : ¬ n = 1 := by omega
  have hL : generateTimesRange n start endMin
      = (List.range n).map (fun (i : Nat) =>
          ((roundHalfEven ((start : ℚ)
              + (i : ℚ) * (((endMin : ℚ) - (start : ℚ))
                  / ((n : ℚ) - 1)))).toNat / 60,
           (roundHalfEven ((start : ℚ)
              + (i : ℚ) * (((endMin : ℚ) - (start : ℚ))
                  / ((n : ℚ) - 1)))).toNat % 60)) := by
    simp only [generateTimesRange]
    rw [if_neg hn0, if_neg hn1]
  have h5 : ∀ i, i < n →
      (generateTimesRange n start endMin).get? i
        = some
          ((roundHalfEven ((start : ℚ)
              + (i : ℚ) * (((endMin : ℚ) - (start : ℚ))
                  / ((n : ℚ) - 1)))).toNat / 60,
           (roundHalfEven ((start : ℚ)
              + (i : ℚ) * (((endMin : ℚ) - (start : ℚ))
                  / ((n : ℚ) - 1)))).toNat % 60) := by
    intro i hi
    rw [hL, List.get?_map, List.get?_range hi]
    rfl
  have hlen : (generateTimesRange n start endMin).length = n := by
    rw [hL]
    simp
  have hval0 : (start : ℚ)
      + ((0 : Nat) : ℚ) * (((endMin : ℚ) - (start : ℚ)) / ((n : ℚ) - 1))
      = ((start : Nat) : ℚ) := by
    push_cast
    ring
  have hne : ((n : ℚ) - 1) ≠ 0 := by
    have h2 : (2 : ℚ) ≤ (n : ℚ) := by exact_mod_cast hn
    intro h0
    have : (n : ℚ) = 1 := by linarith
    linarith
  have hvalLast : (start : ℚ)
      + (((n - 1 : Nat)) : ℚ) * (((endMin : ℚ) - (start : ℚ)) / ((n : ℚ) - 1))
      = ((endMin : Nat) : ℚ) := by
    have h1 : (1 : ℕ) ≤ n := by omega
    have hcast : (((n - 1 : Nat)) : ℚ) = (n : ℚ) - 1 := by
      rw [Nat.cast_sub h1, Nat.cast_one]
    rw [hcast, mul_comm, div_mul_cancel₀ _ hne]
    ring
  have hhead : (generateTimesRange n start endMin).head?
      = some (start / 60, start % 60) := by
    rw [← List.get?_zero, h5 0 (by omega), hval0, roundHalfEven_natCast,
      Int.toNat_natCast]
  have hlast : (generateTimesRange n start endMin).getLast?
      = some (endMin / 60, endMin % 60) := by
    rw [List.getLast?_eq_get?, hlen, h5 (n - 1) (by omega), hvalLast,
      roundHalfEven_natCast, Int.toNat_natCast]
  have hchain : List.Chain' (fun a b => toMin a ≤ toMin b)
      (generateTimesRange n start endMin) := by
    rw [hL, List.chain'_map]
    have htm : ∀ t : Nat, toMin (t / 60, t % 60) = t := by
      intro t
      simp only [toMin]
      omega
    obtain ⟨m, rfl⟩ : ∃ m, n = m + 1 := ⟨n - 1, by omega⟩
    rw [List.chain'_range_succ]
    intro i hi
    rw [htm, htm]
    apply Int.toNat_le_toNat
    apply roundHalfEven_mono
    have hden : (0 : ℚ) ≤ (((m + 1 : Nat)) : ℚ) - 1 := by
      have hc1 : (1 : ℚ) ≤ (((m + 1 : Nat)) : ℚ) := by
        exact_mod_cast (by omega : 1 ≤ m + 1)
      linarith
    have hnum : (0 : ℚ) ≤ (endMin : ℚ) - (start : ℚ) := by
      have : (start : ℚ) ≤ (endMin : ℚ) := by exact_mod_cast hse
      linarith
    have hivpos : 0 ≤ ((endMin : ℚ) - (start : ℚ)) / ((((m + 1 : Nat)) : ℚ) - 1) :=
      div_nonneg hnum hden
    have hc : ((i : ℕ) : ℚ) ≤ (((i + 1 : Nat)) : ℚ) := by
      exact_mod_cast Nat.le_succ i
    have hmul := mul_le_mul_of_nonneg_right hc hivpos
    linarith
  exact ⟨hlen, hhead, hlast, hchain, h5, rfl, by simp [generateTimesRange]⟩

/-- C5: for `n_slots >= 2` and either named window, `_generate_times` returns
exactly `n_slots` (hour, minute) pairs, non-decreasing in minute-of-day, whose
first element is the window start, whose last is the window end, and whose
`i`-th element is `start + i * (end - start) / (n_slots - 1)` rounded to the
nearest minute; zero slots give the empty list and one slot gives the window
start. -/
theorem generateTimes_spec (n : Nat) (w : String) (hn : 2 ≤ n)
    (hw : w = "full_day" ∨ w = "market_hours") :
    (generateTimes n w).length = n
    ∧ (generateTimes n w).head?
        = some ((windowRange w).1 / 60, (windowRange w).1 % 60)
    ∧ (generateTimes n w).getLast?
        = some ((windowRange w).2 / 60, (windowRange w).2 % 60)
    ∧ List.Chain' (fun a b => toMin a ≤ toMin b) (generateTimes n w)
    ∧ (∀ i, i < n →
        (generateTimes n w).get? i
          = some
            ((roundHalfEven (((windowRange w).1 : ℚ)
                + (i : ℚ) * ((((windowRange w).2 : ℚ) - ((windowRange w).1 : ℚ))
                    / ((n : ℚ) - 1)))).toNat / 60,
             (roundHalfEven (((windowRange w).1 : ℚ)
                + (i : ℚ) * ((((windowRange w).2 : ℚ) - ((windowRange w).1 : ℚ))
                    / ((n : ℚ) - 1)))).toNat % 60))
    ∧ generateTimes 0 w = []
    ∧ generateTimes 1 w = [((windowRange w).1 / 60, (windowRange w).1 % 60)] := by
  have hle : (windowRange w).1 ≤ (windowRange w).2 := by
    rcases hw with h | h <;> subst h <;> decide
  exact generateTimesRange_spec n (windowRange w).1 (windowRange w).2 hn hle

/-- C5 witness: five slots in the full-day window start at 7:00 and end at
16:15. -/
theorem generateTimes_spec_witness :
    (generateTimes 5 "full_day").length = 5
    ∧ (generateTimes 5 "full_day").head? = some (7, 0)
    ∧ (generateTimes 5 "full_day").getLast? = some (16, 15) :=
  ⟨(generateTimes_spec 5 "full_day" (by decide) (Or.inl rfl)).1,
   ((generateTimes_spec 5 "full_day" (by decide) (Or.inl rfl)).2.1).trans (by decide),
   ((generateTimes_spec 5 "full_day" (by decide) (Or.inl rfl)).2.2.1).trans (by decide)⟩

/-- Recording a row for one platform never changes the duplicate verdict of a
different platform (the inserted row, when any, carries the other platform). -/
theorem isDuplicate_recordPost_ne (store : List DedupRow)
    (hash endpoint platform hash2 endpoint2 platform2 : String) (t : Int)
    (hp : platform ≠ platform2) :
    isDuplicate (recordPost store hash endpoint platform t) hash2 endpoint2 platform2
      = isDuplicate store hash2 endpoint2 platform2 := by
  unfold isDuplicate dedupCount recordPost
  by_cases hc : store.any (fun r => r.contentHash == hash) = true
  · rw [if_pos hc]
  · rw [if_neg hc, List.countP_append]
    have hrow : ((⟨hash, endpoint, platform, t⟩ : DedupRow).platform == platform2)
        = false := beq_eq_false_iff_ne.mpr hp
    have hz : List.countP (fun r : DedupRow =>
        r.contentHash == hash2 && r.endpoint == endpoint2 && r.platform == platform2)
        [⟨hash, endpoint, platform, t⟩] = 0 := by
      simp [List.countP_cons, hrow]
    rw [hz, Nat.add_zero]

/-- Soundness of the `guardedBefore` trace checker: when it accepts, every
split at the target event has the guard in the prefix. -/
theorem guardedBefore_spec (g t : Event) :
    ∀ l : List Event, guardedBefore g t l = true →
      ∀ pre post, l = pre ++ t :: post → g ∈ pre := by
  intro l
  induction l with
  | nil =>
    intro _ pre post h
    exact absurd h (by simp)
  | cons e rest ih =>
    intro hchk pre post heq
    unfold guardedBefore at hchk
    by_cases het : e = t
    · rw [if_pos het] at hchk
      exact absurd hchk (by simp)
    · rw [if_neg het] at hchk
      by_cases heg : e = g
      · cases pre with
        | nil =>
          rw [List.nil_append] at heq
          injection heq with h1 h2
          exact absurd h1 het
        | cons a pre2 =>
          rw [List.cons_append] at heq
          injection heq with h1 h2
          rw [← h1, heg]
          exact List.mem_cons_self g pre2
      · rw [if_neg heg] at hchk
        cases pre with
        | nil =>
          rw [List.nil_append] at heq
          injection heq with h1 h2
          exact absurd h1 het
        | cons a pre2 =>
          rw [List.cons_append] at heq
          injection heq with h1 h2
          exact List.mem_cons_of_mem a (ih hchk pre2 post h2)

/-- Soundness of the `noGenAfterDedup` trace checker: when it accepts, no
dedup check precedes any generation call. -/
theorem noGenAfterDedup_spec :
    ∀ l : List Event, noGenAfterDedup l = true →
      ∀ pre p post, l = pre ++ Event.genCall p :: post →
        ∀ q, Event.dedupCheck q ∉ pre := by
  intro l
  induction l with
  | nil =>
    intro _ pre p post h q
    exact absurd h (by simp)
  | cons e rest ih =>
    intro hchk pre p post heq q
    unfold noGenAfterDedup at hchk
    cases pre with
    | nil => exact List.not_mem_nil _
    | cons a pre2 =>
      rw [List.cons_append] at heq
      injection heq with h1 h2
      by_cases hd : isDedupCheck e = true
      · rw [if_pos hd] at hchk
        exfalso
        have hmem : Event.genCall p ∈ rest := by
          rw [h2]
          exact List.mem_append_right _ (List.mem_cons_self _ _)
        have := List.all_eq_true.mp hchk _ hmem
        simp [isGenCall] at this
      · rw [if_neg hd] at hchk
        intro hmem
        rcases List.mem_cons.mp hmem with hmem | hmem
        · apply hd
          rw [h1, ← hmem]
          rfl
        · exact absurd hmem (ih hchk pre2 p post h2 q)

/-- A generation-free trace passes `noGenAfterDedup`. -/
theorem noGenAfterDedup_of_all (l : List Event)
    (h : l.all (fun e => !isGenCall e) = true) : noGenAfterDedup l = true := by
  induction l with
  | nil => rfl
  | cons e rest ih =>
    rw [List.all_cons, Bool.and_eq_true] at h
    unfold noGenAfterDedup
    by_cases hd : isDedupCheck e = true
    · rw [if_pos hd]
      exact h.2
    · rw [if_neg hd]
      exact ih h.2

/-- Prefixing dedup-check-free events onto a generation-free tail passes
`noGenAfterDedup`. -/
theorem noGenAfterDedup_append (l1 l2 : List Event)
    (h1 : l1.all (fun e => !isDedupCheck e) = true)
    (h2 : l2.all (fun e => !isGenCall e) = true) :
    noGenAfterDedup (l1 ++ l2) = true := by
  induction l1 with
  | nil => exact noGenAfterDedup_of_all l2 h2
  | cons e l1 ih =>
    rw [List.all_cons, Bool.and_eq_true] at h1
    rw [List.cons_append]
    unfold noGenAfterDedup
    have hd : isDedupCheck e = false := by simpa using h1.1
    rw [if_neg (by rw [hd]; exact Bool.false_ne_true)]
    exact ih h1.2

/-- Prefixing events free of both the guard and the target preserves
acceptance by `guardedBefore`. -/
theorem guardedBefore_append (g t : Event) (l1 l2 : List Event)
    (h1 : l1.all (fun e => !(e == t) && !(e == g)) = true)
    (hgb : guardedBefore g t l2 = true) :
    guardedBefore g t (l1 ++ l2) = true := by
  induction l1 with
  | nil => exact hgb
  | cons e l1 ih =>
    rw [List.all_cons, Bool.and_eq_true, Bool.and_eq_true] at h1
    rw [List.cons_append]
    unfold guardedBefore
    rw [if_neg (by
      have := h1.1.1
      simp only [Bool.not_eq_true'] at this
      exact fun hq => absurd (beq_iff_eq.mpr hq) (by rw [this]; exact Bool.false_ne_true))]
    rw [if_neg (by
      have := h1.1.2
      simp only [Bool.not_eq_true'] at this
      exact fun hq => absurd (beq_iff_eq.mpr hq) (by rw [this]; exact Bool.false_ne_true))]
    exact ih h1.2

/-- The Discord block emits no generation call, no Twitter publish attempt
and no rate-limiter query. -/
theorem discordBlock_events (inp : PipelineInput) (now : Int) (st : PipelineState) :
    ((discordBlock inp now st).2).all
      (fun e => !isGenCall e && !(e == Event.publishAttempt "twitter")
        && !(e == Event.rateCheck)) = true := by
  unfold discordBlock
  split
  · rfl
  · split <;> rfl

/-- The Twitter block emits no generation call and no Discord publish
attempt. -/
theorem twitterBlock_events (inp : PipelineInput) (now : Int)
    (maxPerMinute maxPerDay : Nat) (st : PipelineState) :
    ((twitterBlock inp now maxPerMinute maxPerDay st).2).all
      (fun e => !isGenCall e && !(e == Event.publishAttempt "discord")) = true := by
  unfold twitterBlock
  split
  · rfl
  · split
    · split
      · split <;> rfl
      · rfl
    · rfl

/-- In the Twitter block every publish attempt is preceded by the rate-limit
query. -/
theorem twitterBlock_rate_guard (inp : PipelineInput) (now : Int)
    (maxPerMinute maxPerDay : Nat) (st : PipelineState) :
    guardedBefore Event.rateCheck (Event.publishAttempt "twitter")
      (twitterBlock inp now maxPerMinute maxPerDay st).2 = true := by
  unfold twitterBlock
  split
  · rfl
  · split
    · split
      · split <;> rfl
      · rfl
    · rfl

/-- The duplicate branch of the Discord block emits only its dedup check. -/
theorem discordBlock_dup (inp : PipelineInput) (now : Int) (st : PipelineState)
    (h : isDuplicate st.dedup inp.contentHash inp.endpointName "discord" = true) :
    (discordBlock inp now st).2 = [Event.dedupCheck "discord"] := by
  unfold discordBlock
  rw [if_pos h]

/-- The duplicate branch of the Twitter block emits only its dedup check. -/
theorem twitterBlock_dup (inp : PipelineInput) (now : Int)
    (maxPerMinute maxPerDay : Nat) (st : PipelineState)
    (h : isDuplicate st.dedup inp.contentHash inp.endpointName "twitter" = true) :
    (twitterBlock inp now maxPerMinute maxPerDay st).2
      = [Event.dedupCheck "twitter"] := by
  unfold twitterBlock
  rw [if_pos h]

/-- The Discord block either leaves the dedup table unchanged or records the
run's content for the `discord` platform. -/
theorem discordBlock_dedup_cases (inp : PipelineInput) (now : Int)
    (st : PipelineState) :
    (discordBlock inp now st).1.dedup = st.dedup
    ∨ (discordBlock inp now st).1.dedup
        = recordPost st.dedup inp.contentHash inp.endpointName "discord" now := by
  unfold discordBlock
  split
  · exact Or.inl rfl
  · split
    · exact Or.inl rfl
    · exact Or.inr rfl
    · exact Or.inr rfl

/-- The Discord block never changes the Twitter duplicate verdict of the
run's content (it records, if anything, a `discord` row). -/
theorem discordBlock_preserves_twitter_dup (inp : PipelineInput) (now : Int)
    (st : PipelineState) :
    isDuplicate (discordBlock inp now st).1.dedup
        inp.contentHash inp.endpointName "twitter"
      = isDuplicate st.dedup inp.contentHash inp.endpointName "twitter" := by
  rcases discordBlock_dedup_cases inp now st with h | h
  · rw [h]
  · rw [h, isDuplicate_recordPost_ne st.dedup inp.contentHash inp.endpointName
      "discord" inp.contentHash inp.endpointName "twitter" now (by decide)]

/-- C2 amended: within one `_post_content` run, the rate-limit check happens
before the constrained-platform (Twitter) publish attempt, and a duplicate for
a platform suppresses that platform's publish attempt; however generation is
not gated by deduplication — every generation call precedes every dedup check
(so duplicate content still spends the generation calls), which is the code's
actual order, opposite to the claimed dedup-before-generation. -/
theorem postContent_ordering (inp : PipelineInput) (now : Int)
    (maxPerMinute maxPerDay : Nat) (st : PipelineState) :
    (∀ pre post,
        (postContent inp now maxPerMinute maxPerDay st).2
          = pre ++ Event.publishAttempt "twitter" :: post →
        Event.rateCheck ∈ pre)
    ∧ (isDuplicate st.dedup inp.contentHash inp.endpointName "discord" = true →
        Event.publishAttempt "discord"
          ∉ (postContent inp now maxPerMinute maxPerDay st).2)
    ∧ (isDuplicate st.dedup inp.contentHash inp.endpointName "twitter" = true →
        Event.publishAttempt "twitter"
          ∉ (postContent inp now maxPerMinute maxPerDay st).2)
    ∧ (∀ pre p post,
        (postContent inp now maxPerMinute maxPerDay st).2
          = pre ++ Event.genCall p :: post →
        ∀ q, Event.dedupCheck q ∉ pre) := by
  cases hds : inp.dataSuccess with
  | false =>
    have htr : (postContent inp now maxPerMinute maxPerDay st).2 = [] := by
      unfold postContent
      rw [hds]
      rfl
    refine ⟨?_, ?_, ?_, ?_⟩
    · intro pre post heq
      rw [htr] at heq
      exact absurd heq (by simp)
    · intro _
      rw [htr]
      exact List.not_mem_nil _
    · intro _
      rw [htr]
      exact List.not_mem_nil _
    · intro pre p post heq q
      rw [htr] at heq
      exact absurd heq (by simp)
  | true =>
    cases hhc : inp.hasContent with
    | false =>
      have htr : (postContent inp now maxPerMinute maxPerDay st).2 = [] := by
        unfold postContent
        rw [hds, hhc]
        rfl
      refine ⟨?_, ?_, ?_, ?_⟩
      · intro pre post heq
        rw [htr] at heq
        exact absurd heq (by simp)
      · intro _
        rw [htr]
        exact List.not_mem_nil _
      · intro _
        rw [htr]
        exact List.not_mem_nil _
      · intro pre p post heq q
        rw [htr] at heq
        exact absurd heq (by simp)
    | true =>
      obtain ⟨st1, hst1⟩ : ∃ s : PipelineState,
          s = { st with stats := { st.stats with
                  totalPosts := st.stats.totalPosts + 1 } } := ⟨_, rfl⟩
      have hstd : st1.dedup = st.dedup := by rw [hst1]
      have htr : (postContent inp now maxPerMinute maxPerDay st).2
          = (if inp.useAi
              then [Event.genCall "twitter", Event.genCall "discord"] else [])
            ++ (discordBlock inp now st1).2
            ++ (twitterBlock inp now maxPerMinute maxPerDay
                (discordBlock inp now st1).1).2 := by
        unfold postContent
        rw [hds, hhc, ← hst1]
        rfl
      have hgenAll : (if inp.useAi
          then [Event.genCall "twitter", Event.genCall "discord"] else []).all
            (fun e => !isDedupCheck e) = true := by
        cases inp.useAi <;> rfl
      have hgenClean : (if inp.useAi
          then [Event.genCall "twitter", Event.genCall "discord"] else []).all
            (fun e => !(e == Event.publishAttempt "twitter")
              && !(e == Event.rateCheck)) = true := by
        cases inp.useAi <;> rfl
      have hdAll := discordBlock_events inp now st1
      have hdClean : ((discordBlock inp now st1).2).all
          (fun e => !(e == Event.publishAttempt "twitter")
            && !(e == Event.rateCheck)) = true := by
        rw [List.all_eq_true] at hdAll ⊢
        intro e he
        have hthis := hdAll e he
        rw [Bool.and_eq_true, Bool.and_eq_true] at hthis
        rw [Bool.and_eq_true]
        exact ⟨hthis.1.2, hthis.2⟩
      refine ⟨?_, ?_, ?_, ?_⟩
      · intro pre post heq
        rw [htr] at heq
        refine guardedBefore_spec _ _ _ ?_ pre post heq
        rw [List.append_assoc]
        exact guardedBefore_append _ _ _ _ hgenClean
          (guardedBefore_append _ _ _ _ hdClean
            (twitterBlock_rate_guard inp now maxPerMinute maxPerDay
              (discordBlock inp now st1).1))
      · intro hdup
        have hdup1 : isDuplicate st1.dedup inp.contentHash inp.endpointName
            "discord" = true := by
          rw [hstd]
          exact hdup
        rw [htr, discordBlock_dup inp now st1 hdup1]
        intro hmem
        rcases List.mem_append.mp hmem with hmem | hmem
        · rcases List.mem_append.mp hmem with hmem | hmem
          · cases hai : inp.useAi <;>
              (rw [hai] at hmem; exact absurd hmem (by decide))
          · exact absurd hmem (by decide)
        · exact absurd (List.all_eq_true.mp
            (twitterBlock_events inp now maxPerMinute maxPerDay
              (discordBlock inp now st1).1) _ hmem) (by decide)
      · intro hdup
        have hdup1 : isDuplicate (discordBlock inp now st1).1.dedup
            inp.contentHash inp.endpointName "twitter" = true := by
          rw [discordBlock_preserves_twitter_dup, hstd]
          exact hdup
        rw [htr, twitterBlock_dup inp now maxPerMinute maxPerDay
          (discordBlock inp now st1).1 hdup1]
        intro hmem
        rcases List.mem_append.mp hmem with hmem | hmem
        · rcases List.mem_append.mp hmem with hmem | hmem
          · cases hai : inp.useAi <;>
              (rw [hai] at hmem; exact absurd hmem (by decide))
          · exact absurd (List.all_eq_true.mp hdAll _ hmem) (by decide)
        · exact absurd hmem (by decide)
      · intro pre p post heq q
        rw [htr] at heq
        refine noGenAfterDedup_spec _ ?_ pre p post heq q
        rw [List.append_assoc]
        apply noGenAfterDedup_append _ _ hgenAll
        rw [List.all_append, Bool.and_eq_true]
        constructor
        · rw [List.all_eq_true]
          intro e he
          have hthis := List.all_eq_true.mp hdAll e he
          rw [Bool.and_eq_true, Bool.and_eq_true] at hthis
          exact hthis.1.1
        · rw [List.all_eq_true]
          intro e he
          have hthis := List.all_eq_true.mp
            (twitterBlock_events inp now maxPerMinute maxPerDay
              (discordBlock inp now st1).1) e he
          rw [Bool.and_eq_true] at hthis
          exact hthis.1

/-- C2 amended witness: a full successful run.  Its trace places the
rate-limit check (position 7) before the Twitter publish attempt
(position 8), as the theorem's first conjunct demands at this concrete
split. -/
theorem postContent_ordering_witness :
    Event.rateCheck ∈ [Event.genCall "twitter", Event.genCall "discord",
      Event.dedupCheck "discord", Event.publishAttempt "discord",
      Event.dedupRecord "discord", Event.dedupCheck "twitter",
      Event.rateCheck] :=
  (postContent_ordering ⟨"e", "h", true, true, true, false, .success, .success⟩
      0 1 15 ⟨[], [], ⟨0, 0, 0, 0, 0⟩⟩).1
    [Event.genCall "twitter", Event.genCall "discord",
     Event.dedupCheck "discord", Event.publishAttempt "discord",
     Event.dedupRecord "discord", Event.dedupCheck "twitter", Event.rateCheck]
    [Event.rateRecord, Event.dedupRecord "twitter"]
    (by decide)
